import Mathlib

/-
Verification of the Terse/prolix run-block codec (src/include/Terse.hpp).

The development shallowly embeds the `jpa::Terse` class.  Bit streams are
modelled as `List Bool` (bit i of byte b at list index 8*b + i, i.e. bits
numbered least-significant-first within each byte, exactly the layout of
`Bit_pointer`/`Bit_range`).  Machine-word contents are modelled as `Nat`/`Int`.
`Bit_pointer.hpp` is not part of the sources; its primitives (single-bit and
LSB-first multi-bit reads and writes, `get_range` reconstruction with
saturation) are modelled from the specification, sections 4.1 and 4.2, and are
marked as such.  Everything else is translated from `Terse.hpp`.
-/

namespace Trpx

/-- Modelled from the spec: BitCursor `write_bits(value, n)` writes the n low
bits of `value` least-significant-bit-first (spec section 4.1); `toBitsLSB m w` is
the list of those `w` bits. -/
def toBitsLSB : Nat → Nat → List Bool
  | _, 0 => []
  | m, w + 1 => decide (m % 2 = 1) :: toBitsLSB (m / 2) w

/-- Modelled from the spec: BitCursor `read_bit` at absolute bit position `p`.
Positions past the end read as 0 (the encoder zero-fills; in-bounds accesses are
the only ones exercised by the theorems below). -/
def readBit (data : List Bool) (p : Nat) : Bool :=
  data.getD p false

/-- Modelled from the spec: BitCursor `read_bits(n)` at absolute bit position
`p`, least-significant-bit-first (spec section 4.1). -/
def readBits (data : List Bool) : Nat → Nat → Nat
  | _, 0 => 0
  | p, n + 1 => (cond (readBit data p) 1 0) + 2 * readBits data (p + 1) n

/-- The block-header emission of `Terse::f_compress` (Terse.hpp lines 518-536):
repeat bit, or `0` plus a 3-bit / 3+2-bit / 3+2+6-bit width announcement, the
packed field values `0b111 + ((w-7) << 3)` and `0b11111 + ((w-10) << 5)`
written exactly as the source computes them. -/
def headerBits (w prev : Nat) : List Bool :=
  if w = prev then [true]
  else if w < 7 then false :: toBitsLSB w 3
  else if w < 10 then false :: toBitsLSB (7 + (w - 7) * 8) 5
  else false :: toBitsLSB (31 + (w - 10) * 32) 11

/-- The block-header parse shared by `Terse::prolix` (lines 362-373) and
`Terse::f_find_terse_frame` (lines 569-580): read one bit; on 0 read a 3-bit
width, extended by 2 bits when it reads 7 and by 6 further bits when that
reads 10.  Returns the new `significant_bits` and the new bit position. -/
def readHeader (data : List Bool) (pos sb : Nat) : Nat × Nat :=
  if readBit data pos then (sb, pos + 1)
  else
    let s1 := readBits data (pos + 1) 3
    if s1 = 7 then
      let s2 := s1 + readBits data (pos + 4) 2
      if s2 = 10 then (s2 + readBits data (pos + 6) 6, pos + 12)
      else (s2, pos + 6)
    else (s1, pos + 4)

/-- `Terse::f_highest_set_bit` for unsigned arguments (lines 556-560): the
`for ( ; val; val>>=1, ++r);` loop.  The `fuel` argument makes the halving loop
structurally recursive; `fuel ≥ val` always suffices. -/
def f_highest_go : Nat → Nat → Nat
  | 0, _ => 0
  | fuel + 1, val => if val = 0 then 0 else f_highest_go fuel (val / 2) + 1

/-- `Terse::f_highest_set_bit` on an unsigned value (lines 556-560). -/
def f_highest_set_bit (val : Nat) : Nat :=
  f_highest_go val val

/-- The `setbits` accumulation of `Terse::f_compress` (lines 509-515): OR of the
values (unsigned input type) or of their absolute values (signed input type). -/
def blockSetbits (signed : Bool) (blk : List Int) : Nat :=
  blk.foldl (fun acc v => acc ||| (if signed then v.natAbs else v.toNat)) 0

/-- `significant_bits` of one block (lines 516 and 552-555): for a signed input
type `f_highest_set_bit` recurses as `1 + f_highest_set_bit (abs val)` on a
nonzero argument, for an unsigned type it is the shift loop directly. -/
def significantBits (signed : Bool) (blk : List Int) : Nat :=
  let s := blockSetbits signed blk
  if signed then (if s = 0 then 0 else 1 + f_highest_set_bit s) else f_highest_set_bit s

/-- Modelled from the spec: `Bit_range::append_range` writes each value as its
low `w` bits of two's complement, least-significant-bit-first (spec section 4.2,
"Value packing"; `Bit_pointer.hpp` is not among the sources). -/
def valueBits (w : Nat) (v : Int) : List Bool :=
  toBitsLSB (v % (2 ^ w : Int)).toNat w

/-- The per-frame encoding loop of `Terse::f_compress` (lines 506-547).
Processes `vals` in blocks of `B` (the final block may be shorter), emitting
header bits and, for nonzero width, the packed values; threads `prevbits` and
the running `d_prolix_bits` maximum.  Returns the emitted bits and the final
`d_prolix_bits`.  `fuel ≥ vals.length` always suffices (each block consumes at
least one value; the C++ loop does not terminate for `B = 0`, and all theorems
assume `1 ≤ B`). -/
def f_compress_go (signed : Bool) (B : Nat) :
    Nat → List Int → Nat → Nat → List Bool × Nat
  | _, [], _, prolix => ([], prolix)
  | 0, _ :: _, _, prolix => ([], prolix)
  | fuel + 1, v :: vs, prevbits, prolix =>
    let blk := v :: vs.take (B - 1)
    let rest := vs.drop (B - 1)
    let sb := significantBits signed blk
    let hdr := headerBits sb prevbits
    let vbits := if sb = 0 then [] else blk.flatMap (valueBits sb)
    let out := f_compress_go signed B fuel rest sb (max prolix sb)
    (hdr ++ vbits ++ out.1, out.2)

/-- The bits of one encoded frame together with the updated `d_prolix_bits`. -/
def f_compress_loop (signed : Bool) (B : Nat) (prolix : Nat) (vals : List Int) :
    List Bool × Nat :=
  f_compress_go signed B vals.length vals 0 prolix

/-- The final `d_terse_data.resize(1 + (bitp - d_terse_data.data()) / 8)` of
`Terse::f_compress` (line 548): the buffer holds whole bytes, zero-padded, with
`1 + final_bit_cursor / 8` bytes in total (integer division). -/
def padToByte (bits : List Bool) : List Bool :=
  bits ++ List.replicate (8 * (1 + bits.length / 8) - bits.length) false

/-- The error kinds of the specification, section 7.  The source signals the
first three through `assert`; no code path produces `WidthOverflow`. -/
inductive TerseError where
  | ShapeMismatch
  | SignednessMismatch
  | WidthOverflow
  | FrameIndexOutOfRange
deriving DecidableEq, Repr

/-- The `jpa::Terse` object state (lines 478-484): signedness, block size,
frame length, running maximum width, packed bytes (as a bit list, 8 bits per
byte) and the frame-offset table `d_terse_frames`. -/
structure Terse where
  d_signed : Bool
  d_block : Nat
  d_size : Nat
  d_prolix_bits : Nat
  d_terse_data : List Bool
  d_terse_frames : List Nat
deriving DecidableEq, Repr

/-- `Terse::Terse()` (line 238) followed by no pushes; the default block size
is 12, the iterator constructor can choose another one. -/
def Terse.empty (block : Nat) : Terse :=
  { d_signed := false
    d_block := block
    d_size := 0
    d_prolix_bits := 0
    d_terse_data := []
    d_terse_frames := [] }

def Terse.number_of_frames (t : Terse) : Nat := t.d_terse_frames.length

def Terse.size (t : Terse) : Nat := t.d_size

def Terse.is_signed (t : Terse) : Bool := t.d_signed

def Terse.bits_per_val (t : Terse) : Nat := t.d_prolix_bits

/-- `Terse::terse_size` (line 445): the number of packed bytes. -/
def Terse.terse_size (t : Terse) : Nat := t.d_terse_data.length / 8

/-- `Terse::f_compress` (lines 501-550): appends the new frame's bits at the
first byte boundary past the existing data (the buffer is grown zero-filled, so
the gap bits are 0) and shrinks to `1 + final_bit_cursor / 8` bytes. -/
def Terse.f_compress (t : Terse) (vals : List Int) : Terse :=
  let out := f_compress_loop t.d_signed t.d_block t.d_prolix_bits vals
  { t with
    d_prolix_bits := out.2
    d_terse_data := padToByte (t.d_terse_data ++ out.1) }

/-- `Terse::push_back` (lines 291-303): the first frame fixes `d_size` and
`d_signed`; later frames must match them (the source `assert`s, the model
returns the corresponding spec error).  A `0` sentinel is appended to
`d_terse_frames` and the frame is compressed. -/
def Terse.push_back (t : Terse) (signed : Bool) (values : List Int) :
    Except TerseError Terse :=
  if t.number_of_frames = 0 then
    .ok (({ t with
            d_size := values.length
            d_signed := signed
            d_terse_frames := t.d_terse_frames ++ [0] }).f_compress values)
  else if values.length ≠ t.d_size then .error .ShapeMismatch
  else if signed ≠ t.d_signed then .error .SignednessMismatch
  else .ok (({ t with d_terse_frames := t.d_terse_frames ++ [0] }).f_compress values)

/-- The store after a successful push (the store itself when the push fails);
convenience observer for concrete evaluations. -/
def Terse.pushed (t : Terse) (signed : Bool) (values : List Int) : Terse :=
  match t.push_back signed values with
  | .ok t' => t'
  | .error _ => t

/-- Modelled from the spec: sign extension of a `w`-bit field from bit `w-1`
(spec section 4.2, "Value unpacking", step 3). -/
def signExtend (w raw : Nat) : Int :=
  if 0 < w ∧ raw.testBit (w - 1) then (raw : Int) - 2 ^ w else (raw : Int)

/-- Modelled from the spec: the element reconstruction of
`Bit_range::get_range` (`Bit_pointer.hpp` is not among the sources): a signed
output type sign-extends from bit `w-1` and saturates to
`[-2^(outBits-1), 2^(outBits-1)-1]`; an unsigned output type zero-extends and
clamps positive overflow to `2^outBits - 1` (spec section 4.2, steps 3-4, and
the Terse.hpp contract comment, lines 29-31). -/
def get_range_elem (outSigned : Bool) (outBits w raw : Nat) : Int :=
  if outSigned then
    max (-(2 ^ (outBits - 1))) (min (signExtend w raw) (2 ^ (outBits - 1) - 1))
  else
    min (raw : Int) (2 ^ outBits - 1)

/-- The decode loop of `Terse::prolix` (lines 360-387): per block parse the
header, then either fill `min B rem` zeros (width 0) or read that many `w`-bit
fields and reconstruct them into the output type.  Returns the decoded values
and the final bit position.  `fuel ≥ rem` always suffices for `1 ≤ B`. -/
def prolixGo (data : List Bool) (B : Nat) (outSigned : Bool) (outBits : Nat) :
    Nat → Nat → Nat → Nat → List Int × Nat
  | 0, _, pos, _ => ([], pos)
  | fuel + 1, rem, pos, sb =>
    if rem = 0 then ([], pos)
    else
      let h := readHeader data pos sb
      let cnt := min B rem
      if h.1 = 0 then
        let out := prolixGo data B outSigned outBits fuel (rem - cnt) h.2 h.1
        (List.replicate cnt 0 ++ out.1, out.2)
      else
        let vals := (List.range cnt).map
          (fun i => get_range_elem outSigned outBits h.1 (readBits data (h.2 + i * h.1) h.1))
        let out := prolixGo data B outSigned outBits fuel (rem - cnt) (h.2 + cnt * h.1) h.1
        (vals ++ out.1, out.2)

/-- The scan loop of `Terse::f_find_terse_frame` (lines 567-582): parses each
block header and advances `significant_bits * d_block` bits per block — also
for the final, possibly shorter block.  Returns the final bit position. -/
def f_find_go (data : List Bool) (B : Nat) : Nat → Nat → Nat → Nat → Nat
  | 0, _, pos, _ => pos
  | fuel + 1, rem, pos, sb =>
    if rem = 0 then pos
    else
      let h := readHeader data pos sb
      let cnt := min B rem
      f_find_go data B fuel (rem - cnt) (h.2 + h.1 * B) h.1

/-- `Terse::f_find_terse_frame` (lines 563-586): frame 0 is served from
`d_terse_frames[0]`; an unresolved (0) entry for frame `k+1` is materialised by
locating frame `k` and scanning its headers, storing
`1 + (final bit - start bit) / 8`.  Returns the byte offset used for the frame
(the source returns `d_terse_data.data() + d_terse_frames[frame]`) and the
store with the memoised table. -/
def Terse.f_find_terse_frame (t : Terse) : Nat → Nat × Terse
  | 0 => (t.d_terse_frames.getD 0 0, t)
  | frame + 1 =>
    if t.d_terse_frames.getD (frame + 1) 0 = 0 then
      let r := t.f_find_terse_frame frame
      let e := f_find_go r.2.d_terse_data r.2.d_block r.2.d_size r.2.d_size (8 * r.1) 0
      let entry := 1 + (e - 8 * r.1) / 8
      (entry, { r.2 with d_terse_frames := r.2.d_terse_frames.set (frame + 1) entry })
    else (t.d_terse_frames.getD (frame + 1) 0, t)

/-- `Terse::prolix(Iterator, frame)` (lines 353-390): asserts the frame index,
locates the frame, asserts that signed data is not unpacked into an unsigned
output type, decodes `d_size` values, and unconditionally stores
`1 + (bits consumed) / 8` as the next frame's offset entry when one exists.
The source `assert`s are modelled as the corresponding spec errors. -/
def Terse.prolix (t : Terse) (outSigned : Bool) (outBits : Nat) (frame : Nat) :
    Except TerseError (List Int × Terse) :=
  if frame < t.number_of_frames then
    let r := t.f_find_terse_frame frame
    if r.2.d_signed = true ∧ outSigned = false then .error .SignednessMismatch
    else
      let d := prolixGo r.2.d_terse_data r.2.d_block outSigned outBits
        r.2.d_size r.2.d_size (8 * r.1) 0
      let entry := 1 + (d.2 - 8 * r.1) / 8
      let t2 := if frame + 1 < r.2.d_terse_frames.length then
          { r.2 with d_terse_frames := r.2.d_terse_frames.set (frame + 1) entry }
        else r.2
      .ok (d.1, t2)
  else .error .FrameIndexOutOfRange

/-- The values produced by an unpack ([] when it fails); observer for concrete
evaluations. -/
def Terse.prolixVals (t : Terse) (outSigned : Bool) (outBits frame : Nat) : List Int :=
  match t.prolix outSigned outBits frame with
  | .ok r => r.1
  | .error _ => []

/-- The store after an unpack (with its possibly extended offset table);
observer for concrete evaluations. -/
def Terse.prolixNext (t : Terse) (outSigned : Bool) (outBits frame : Nat) : Terse :=
  match t.prolix outSigned outBits frame with
  | .ok r => r.2
  | .error _ => t

/-- Pushing a list of frames in order; failed pushes (which the relevant
theorems rule out by hypothesis) leave the store unchanged. -/
def pushList (signed : Bool) (t : Terse) : List (List Int) → Terse
  | [] => t
  | f :: fs => pushList signed (t.pushed signed f) fs

/-- The block decomposition of a value sequence: blocks of `B` values, the
final one possibly shorter (`fuel ≥ vals.length` suffices for `1 ≤ B`). -/
def chunksGo (B : Nat) : Nat → List Int → List (List Int)
  | _, [] => []
  | 0, _ :: _ => []
  | fuel + 1, v :: vs => (v :: vs.take (B - 1)) :: chunksGo B fuel (vs.drop (B - 1))

/-- The blocks of one frame. -/
def chunks (B : Nat) (vals : List Int) : List (List Int) :=
  chunksGo B vals.length vals

/-- The per-block widths of one frame, as computed by `f_compress`. -/
def blockWidthList (signed : Bool) (B : Nat) (vals : List Int) : List Nat :=
  (chunks B vals).map (significantBits signed)

/-! ### Bit-level lemmas -/

theorem readBit_cons_succ (b : Bool) (l : List Bool) (p : Nat) :
    readBit (b :: l) (p + 1) = readBit l p := by
  simp [readBit, List.getD_cons_succ]

theorem readBit_cons_zero (b : Bool) (l : List Bool) :
    readBit (b :: l) 0 = b := by
  simp [readBit]

theorem readBits_cons_succ (b : Bool) (l : List Bool) :
    ∀ (n p : Nat), readBits (b :: l) (p + 1) n = readBits l p n := by
  intro n
  induction n with
  | zero => intro p; rfl
  | succ n ih =>
    intro p
    simp only [readBits, readBit_cons_succ]
    have : p + 1 + 1 = (p + 1) + 1 := rfl
    rw [this, ih (p + 1)]

theorem readBit_shift (pre l : List Bool) (p : Nat) :
    readBit (pre ++ l) (pre.length + p) = readBit l p := by
  induction pre with
  | nil => simp
  | cons b bs ih =>
    simp only [List.cons_append, List.length_cons]
    have : bs.length + 1 + p = (bs.length + p) + 1 := by omega
    rw [this, readBit_cons_succ, ih]

theorem readBits_shift (pre l : List Bool) (p n : Nat) :
    readBits (pre ++ l) (pre.length + p) n = readBits l p n := by
  induction n generalizing p with
  | zero => rfl
  | succ n ih =>
    simp only [readBits, readBit_shift]
    have : pre.length + p + 1 = pre.length + (p + 1) := by omega
    rw [this, ih (p + 1)]

theorem readBits_toBits_zero (k : Nat) :
    ∀ (n m : Nat) (rest : List Bool), k ≤ n →
      readBits (toBitsLSB m n ++ rest) 0 k = m % 2 ^ k := by
  induction k with
  | zero => intro n m rest _; simp [readBits]; omega
  | succ k ih =>
    intro n m rest hk
    cases n with
    | zero => omega
    | succ n =>
      simp only [toBitsLSB, List.cons_append, readBits, readBit_cons_zero,
        readBits_cons_succ]
      rw [ih n (m / 2) rest (by omega)]
      have h2 : (2 : Nat) ^ (k + 1) = 2 * 2 ^ k := by ring
      rw [h2, Nat.mod_mul]
      have hc : (cond (decide (m % 2 = 1)) 1 0 : Nat) = m % 2 := by
        rcases Nat.mod_two_eq_zero_or_one m with h | h <;> simp [h]
      rw [hc]

theorem readBits_toBits (j k : Nat) :
    ∀ (n m : Nat) (rest : List Bool), j + k ≤ n →
      readBits (toBitsLSB m n ++ rest) j k = m / 2 ^ j % 2 ^ k := by
  induction j with
  | zero =>
    intro n m rest h
    rw [readBits_toBits_zero k n m rest (by omega)]
    simp
  | succ j ih =>
    intro n m rest h
    cases n with
    | zero => omega
    | succ n =>
      simp only [toBitsLSB, List.cons_append, readBits_cons_succ]
      rw [ih n (m / 2) rest (by omega)]
      rw [Nat.div_div_eq_div_mul]
      congr 2
      ring

theorem toBitsLSB_length (m w : Nat) : (toBitsLSB m w).length = w := by
  induction w generalizing m with
  | zero => rfl
  | succ w ih => simp [toBitsLSB, ih]

theorem toBitsLSB_odd (a n : Nat) : toBitsLSB (2 * a + 1) (n + 1) = true :: toBitsLSB a n := by
  have h1 : (2 * a + 1) % 2 = 1 := by omega
  have h2 : (2 * a + 1) / 2 = a := by omega
  simp [toBitsLSB, h1, h2]

theorem toBits_split5 (k : Nat) :
    toBitsLSB (7 + k * 8) 5 = [true, true, true] ++ toBitsLSB k 2 := by
  rw [show 7 + k * 8 = 2 * (3 + k * 4) + 1 by ring, toBitsLSB_odd,
    show 3 + k * 4 = 2 * (1 + k * 2) + 1 by ring, toBitsLSB_odd,
    show 1 + k * 2 = 2 * k + 1 by ring, toBitsLSB_odd]
  rfl

theorem toBits_split11 (k : Nat) :
    toBitsLSB (31 + k * 32) 11 = [true, true, true, true, true] ++ toBitsLSB k 6 := by
  rw [show 31 + k * 32 = 2 * (15 + k * 16) + 1 by ring, toBitsLSB_odd,
    show 15 + k * 16 = 2 * (7 + k * 8) + 1 by ring, toBitsLSB_odd,
    show 7 + k * 8 = 2 * (3 + k * 4) + 1 by ring, toBitsLSB_odd,
    show 3 + k * 4 = 2 * (1 + k * 2) + 1 by ring, toBitsLSB_odd,
    show 1 + k * 2 = 2 * k + 1 by ring, toBitsLSB_odd]
  rfl

theorem readBit_header_first (pre X : List Bool) (b : Bool) :
    readBit (pre ++ b :: X) pre.length = b := by
  have h := readBit_shift pre (b :: X) 0
  simpa [readBit_cons_zero] using h

theorem readBits_header_field (pre tail : List Bool) (V L j k p : Nat)
    (h : j + k ≤ L) (hp : p = pre.length + 1 + j) :
    readBits (pre ++ false :: (toBitsLSB V L ++ tail)) p k
      = V / 2 ^ j % 2 ^ k := by
  rw [List.append_cons]
  have hl : p = (pre ++ [false]).length + j := by simp [hp]
  rw [hl, readBits_shift, readBits_toBits j k L V tail h]

/-- C2. Header-bit grammar: for every block, the encoder emits a single `1` bit
when the block width `w` equals the previous block's width (0 for a frame's
first block), and otherwise `0` followed by the 3-bit field `w` (w ≤ 6), or by
`111` and the 2-bit field `w-7` (7 ≤ w ≤ 9), or by `11111` and the 6-bit field
`w-10` (10 ≤ w ≤ 73), all width fields least-significant-bit-first; and the
decoder, parsing those bits wherever they sit in the stream, recovers exactly
`w` and stops exactly after the header. -/
theorem header_grammar_roundtrip (w prev : Nat) (hw : w ≤ 73) :
    (headerBits w prev =
      if w = prev then [true]
      else if w < 7 then false :: toBitsLSB w 3
      else if w < 10 then false :: ([true, true, true] ++ toBitsLSB (w - 7) 2)
      else false :: ([true, true, true, true, true] ++ toBitsLSB (w - 10) 6))
    ∧ ∀ (pre tail : List Bool),
        readHeader (pre ++ (headerBits w prev ++ tail)) pre.length prev
          = (w, pre.length + (headerBits w prev).length) := by
  constructor
  · by_cases h1 : w = prev
    · simp [headerBits, h1]
    · by_cases h2 : w < 7
      · simp [headerBits, h1, h2]
      · by_cases h3 : w < 10
        · simp only [headerBits, h1, h2, h3, if_false, if_true, ite_true, ite_false,
            if_neg, if_pos]
          rw [toBits_split5]
        · simp only [headerBits, h1, h2, h3, if_false, if_true, ite_true, ite_false]
          rw [toBits_split11]
  · intro pre tail
    by_cases h1 : w = prev
    · have hh : headerBits w prev = [true] := by simp [headerBits, h1]
      rw [hh]
      unfold readHeader
      rw [show pre ++ ([true] ++ tail) = pre ++ true :: tail from rfl,
        readBit_header_first]
      simp [h1]
    · by_cases h2 : w < 7
      · have hh : headerBits w prev = false :: toBitsLSB w 3 := by
          simp [headerBits, h1, h2]
        rw [hh]
        unfold readHeader
        rw [show pre ++ ((false :: toBitsLSB w 3) ++ tail)
              = pre ++ false :: (toBitsLSB w 3 ++ tail) from by simp,
          readBit_header_first]
        rw [readBits_header_field pre tail w 3 0 3 (pre.length + 1) (by omega) (by omega)]
        have hs : w / 2 ^ 0 % 2 ^ 3 = w := by
          simp [Nat.mod_eq_of_lt (show w < 8 by omega)]
        rw [hs]
        have h7 : ¬ (w = 7) := by omega
        simp only [Bool.false_eq_true, if_false, h7, ite_false, List.length_cons,
          toBitsLSB_length]
      · by_cases h3 : w < 10
        · have hh : headerBits w prev = false :: toBitsLSB (7 + (w - 7) * 8) 5 := by
            simp [headerBits, h1, h2, h3]
          rw [hh]
          unfold readHeader
          rw [show pre ++ ((false :: toBitsLSB (7 + (w - 7) * 8) 5) ++ tail)
                = pre ++ false :: (toBitsLSB (7 + (w - 7) * 8) 5 ++ tail) from by simp,
            readBit_header_first]
          rw [readBits_header_field pre tail (7 + (w - 7) * 8) 5 0 3
            (pre.length + 1) (by omega) (by omega)]
          have hs0 : (7 + (w - 7) * 8) / 2 ^ 0 % 2 ^ 3 = 7 := by omega
          rw [hs0]
          rw [readBits_header_field pre tail (7 + (w - 7) * 8) 5 3 2
            (pre.length + 4) (by omega) (by omega)]
          have hs1 : (7 + (w - 7) * 8) / 2 ^ 3 % 2 ^ 2 = w - 7 := by omega
          rw [hs1]
          have h10 : ¬ (7 + (w - 7) = 10) := by omega
          simp only [Bool.false_eq_true, if_false, ite_false, ite_true, if_pos,
            h10, List.length_cons, toBitsLSB_length, Prod.mk.injEq]
          exact ⟨by omega, by simp⟩
        · have hh : headerBits w prev = false :: toBitsLSB (31 + (w - 10) * 32) 11 := by
            simp [headerBits, h1, h2, h3]
          rw [hh]
          unfold readHeader
          rw [show pre ++ ((false :: toBitsLSB (31 + (w - 10) * 32) 11) ++ tail)
                = pre ++ false :: (toBitsLSB (31 + (w - 10) * 32) 11 ++ tail) from by simp,
            readBit_header_first]
          rw [readBits_header_field pre tail (31 + (w - 10) * 32) 11 0 3
            (pre.length + 1) (by omega) (by omega)]
          have hs0 : (31 + (w - 10) * 32) / 2 ^ 0 % 2 ^ 3 = 7 := by omega
          rw [hs0]
          rw [readBits_header_field pre tail (31 + (w - 10) * 32) 11 3 2
            (pre.length + 4) (by omega) (by omega)]
          have hs1 : (31 + (w - 10) * 32) / 2 ^ 3 % 2 ^ 2 = 3 := by omega
          rw [hs1]
          rw [readBits_header_field pre tail (31 + (w - 10) * 32) 11 5 6
            (pre.length + 6) (by omega) (by omega)]
          have hs2 : (31 + (w - 10) * 32) / 2 ^ 5 % 2 ^ 6 = w - 10 := by
            have hlt : w - 10 < 64 := by omega
            have h5 : (31 + (w - 10) * 32) / 2 ^ 5 = w - 10 := by omega
            rw [h5]
            omega
          rw [hs2]
          simp only [Bool.false_eq_true, if_false, ite_false, ite_true, if_pos,
            List.length_cons, toBitsLSB_length, Prod.mk.injEq]
          exact ⟨by omega, by simp⟩

theorem header_grammar_roundtrip_witness :
    (16 ≤ 73)
    ∧ readHeader (([] : List Bool) ++ (headerBits 16 0 ++ [])) ([] : List Bool).length 0
        = (16, ([] : List Bool).length + (headerBits 16 0).length) :=
  ⟨by omega, (header_grammar_roundtrip 16 0 (by omega)).2 [] []⟩

/-! ### Encoder lemmas -/

theorem padToByte_length (l : List Bool) :
    (padToByte l).length = 8 * (1 + l.length / 8) := by
  simp only [padToByte, List.length_append, List.length_replicate]
  omega

theorem blockSetbits_zero_rep (signed : Bool) (n : Nat) :
    blockSetbits signed (List.replicate n (0 : Int)) = 0 := by
  suffices h : ∀ (n : Nat) (acc : Nat),
      (List.replicate n (0 : Int)).foldl
        (fun acc v => acc ||| (if signed then v.natAbs else v.toNat)) acc = acc by
    exact h n 0
  intro n
  induction n with
  | zero => intro acc; rfl
  | succ n ih =>
    intro acc
    rw [List.replicate_succ, List.foldl_cons]
    have hz : (acc ||| (if signed then (0 : Int).natAbs else (0 : Int).toNat)) = acc := by
      cases signed <;> simp
    rw [hz, ih]

theorem significantBits_of_setbits_zero (signed : Bool) (blk : List Int)
    (h : blockSetbits signed blk = 0) : significantBits signed blk = 0 := by
  unfold significantBits
  rw [h]
  cases signed <;> simp [f_highest_set_bit, f_highest_go]

theorem compress_zeros (signed : Bool) (B : Nat) (hB : 1 ≤ B) :
    ∀ (fuel n p : Nat), n ≤ fuel →
      f_compress_go signed B fuel (List.replicate n (0 : Int)) 0 p
        = (List.replicate ((n + B - 1) / B) true, p) := by
  intro fuel
  induction fuel with
  | zero =>
    intro n p h
    have hn : n = 0 := by omega
    subst hn
    simp [f_compress_go, Nat.div_eq_of_lt (show B - 1 < B by omega)]
  | succ fuel ih =>
    intro n p h
    cases n with
    | zero =>
      simp [f_compress_go, Nat.div_eq_of_lt (show B - 1 < B by omega)]
    | succ m =>
      rw [List.replicate_succ]
      simp only [f_compress_go]
      have hblk : (0 : Int) :: (List.replicate m (0 : Int)).take (B - 1)
          = List.replicate ((B - 1) ⊓ m + 1) (0 : Int) := by
        rw [List.take_replicate, ← List.replicate_succ]
      have hsb : significantBits signed
          ((0 : Int) :: (List.replicate m (0 : Int)).take (B - 1)) = 0 := by
        rw [hblk]
        exact significantBits_of_setbits_zero signed _ (blockSetbits_zero_rep signed _)
      rw [hsb]
      have hdr : headerBits 0 0 = [true] := rfl
      rw [hdr]
      have hrest : (List.replicate m (0 : Int)).drop (B - 1)
          = List.replicate (m - (B - 1)) (0 : Int) := List.drop_replicate 0 (B - 1) m
      rw [hrest]
      have hp : max p 0 = p := by omega
      rw [hp, ih (m - (B - 1)) p (by omega)]
      have harith : (m - (B - 1) + B - 1) / B + 1 = (m + 1 + B - 1) / B := by
        rcases le_or_lt (B - 1) m with hc | hc
        · have e1 : m - (B - 1) + B - 1 = m := by omega
          have e2 : m + 1 + B - 1 = m + B := by omega
          rw [e1, e2, Nat.add_div_right m (by omega : 0 < B)]
        · have e1 : m - (B - 1) = 0 := by omega
          have e2 : m + 1 + B - 1 = m + B := by omega
          rw [e1, e2, Nat.add_div_right m (by omega : 0 < B)]
          rw [Nat.div_eq_of_lt (by omega : 0 + B - 1 < B),
            Nat.div_eq_of_lt (by omega : m < B)]
      simp only [if_true, ite_true, List.cons_append, List.nil_append,
        List.singleton_append, List.append_nil]
      rw [show (true :: List.replicate ((m - (B - 1) + B - 1) / B) true)
            = List.replicate ((m - (B - 1) + B - 1) / B + 1) true
          from (List.replicate_succ true _).symm]
      rw [harith]

/-- A successful `push_back` in one explicit form: whichever branch was taken,
the store's signedness and size equal the pushed frame's, a `0` sentinel is
appended to the offset table, and the new frame's bits are appended (padded to
whole bytes) with the running width maximum updated. -/
theorem push_back_ok (t : Terse) (signed : Bool) (values : List Int) (t' : Terse)
    (h : t.push_back signed values = .ok t') :
    t' = { t with
           d_signed := signed
           d_size := values.length
           d_prolix_bits := (f_compress_loop signed t.d_block t.d_prolix_bits values).2
           d_terse_data := padToByte (t.d_terse_data
              ++ (f_compress_loop signed t.d_block t.d_prolix_bits values).1)
           d_terse_frames := t.d_terse_frames ++ [0] } := by
  unfold Terse.push_back at h
  by_cases h0 : t.number_of_frames = 0
  · rw [if_pos h0] at h
    simp only [Except.ok.injEq] at h
    subst h
    rfl
  · rw [if_neg h0] at h
    by_cases hL : values.length ≠ t.d_size
    · rw [if_pos hL] at h; exact absurd h (by simp)
    · rw [if_neg hL] at h
      by_cases hS : signed ≠ t.d_signed
      · rw [if_pos hS] at h; exact absurd h (by simp)
      · rw [if_neg hS] at h
        simp only [Except.ok.injEq] at h
        subst h
        push_neg at hL hS
        rw [hS, hL]
        rfl

theorem pushed_of_ok (t : Terse) (signed : Bool) (values : List Int) (t' : Terse)
    (h : t.push_back signed values = .ok t') : t.pushed signed values = t' := by
  unfold Terse.pushed
  rw [h]

theorem push_back_empty (B : Nat) (signed : Bool) (values : List Int) :
    (Terse.empty B).push_back signed values
      = .ok (({ Terse.empty B with
                d_size := values.length
                d_signed := signed
                d_terse_frames := (Terse.empty B).d_terse_frames ++ [0] }).f_compress
              values) := by
  unfold Terse.push_back
  rw [if_pos (show (Terse.empty B).number_of_frames = 0 from rfl)]

/-- Helper: the byte size of the buffer after any successful push. -/
theorem terse_size_push_ok (t : Terse) (signed : Bool) (values : List Int) (t' : Terse)
    (h : t.push_back signed values = .ok t') :
    t'.terse_size
      = 1 + (t.d_terse_data.length
          + (f_compress_loop signed t.d_block t.d_prolix_bits values).1.length) / 8 := by
  rw [push_back_ok t signed values t' h]
  show (padToByte (t.d_terse_data
      ++ (f_compress_loop signed t.d_block t.d_prolix_bits values).1)).length / 8 = _
  rw [padToByte_length, List.length_append]
  omega

/-- C8 (amended). After a successful frame push the packed buffer is exactly
`1 + final_bit_cursor / 8` bytes (integer division), where `final_bit_cursor`
is the bit position one past the last bit written for the frame, i.e. the bit
length of the previous buffer plus the frame's emitted bits. -/
theorem post_encode_shrink (t : Terse) (signed : Bool) (values : List Int) (t' : Terse)
    (h : t.push_back signed values = .ok t') :
    t'.terse_size
      = 1 + (t.d_terse_data.length
          + (f_compress_loop signed t.d_block t.d_prolix_bits values).1.length) / 8 :=
  terse_size_push_ok t signed values t' h

theorem post_encode_shrink_witness :
    ((Terse.empty 12).pushed false [0]).terse_size
      = 1 + ((Terse.empty 12).d_terse_data.length
          + (f_compress_loop false (Terse.empty 12).d_block
              (Terse.empty 12).d_prolix_bits [0]).1.length) / 8 :=
  post_encode_shrink (Terse.empty 12) false [0] ((Terse.empty 12).pushed false [0]) (by rfl)

/-- C8 counterexample. Pushing the single value 0 (block size 12) writes one
bit; the source shrinks the buffer to `1 + 1/8 = 1` byte, not the claimed
`1 + ceil(1/8) = 2` bytes. -/
theorem post_encode_shrink_ceil_counterexample :
    ((Terse.empty 12).pushed false [0]).terse_size = 1
    ∧ (f_compress_loop false 12 0 [(0 : Int)]).1.length = 1
    ∧ ((Terse.empty 12).pushed false [0]).terse_size ≠ 1 + (1 + 8 - 1) / 8 := by
  refine ⟨by rfl, by rfl, ?_⟩
  decide

/-- Helper: the full evaluation of scenario S2 (262144 zeros, unsigned, block
size 12): the frame encodes to 21846 repeat bits and the pushed store holds
2731 packed bytes. -/
theorem zeros_S2_eval :
    (f_compress_loop false 12 0 (List.replicate 262144 (0 : Int))).1
        = List.replicate 21846 true
    ∧ ((Terse.empty 12).pushed false (List.replicate 262144 (0 : Int))).terse_size
        = 2731 := by
  have hbits : f_compress_go false 12 262144 (List.replicate 262144 (0 : Int)) 0 0
      = (List.replicate 21846 true, 0) := by
    have h := compress_zeros false 12 (by omega) 262144 262144 0 (le_refl _)
    rw [h]
  have hloop : (f_compress_loop false 12 0 (List.replicate 262144 (0 : Int)))
      = (List.replicate 21846 true, 0) := by
    unfold f_compress_loop
    rw [List.length_replicate]
    exact hbits
  refine ⟨by rw [hloop], ?_⟩
  have hpush := push_back_empty 12 false (List.replicate 262144 (0 : Int))
  have hval := pushed_of_ok _ _ _ _ hpush
  rw [hval]
  have h8 := terse_size_push_ok _ _ _ _ hpush
  rw [h8]
  have hlen : (f_compress_loop false (Terse.empty 12).d_block
      (Terse.empty 12).d_prolix_bits (List.replicate 262144 (0 : Int))).1.length
      = 21846 := by
    show (f_compress_loop false 12 0 (List.replicate 262144 (0 : Int))).1.length = 21846
    rw [hloop, List.length_replicate]
  rw [hlen]
  norm_num [Terse.empty]

/-- C9 (amended). Pushing 262144 zeros as one unsigned frame with block size 12
encodes ceil(262144/12) = 21846 blocks; every block header, the first one
included, is the single repeat bit `1` (the first block's width 0 equals the
initial previous-width 0), no value bits are emitted, and the packed buffer is
`1 + 21846/8 = 2731` bytes. -/
theorem all_zeros_S2 :
    (f_compress_loop false 12 0 (List.replicate 262144 (0 : Int))).1
        = List.replicate 21846 true
    ∧ ((Terse.empty 12).pushed false (List.replicate 262144 (0 : Int))).terse_size
        = 2731 :=
  zeros_S2_eval

/-- C9 counterexample. The first block header of the all-zeros frame is the
repeat bit `1`, not a width announcement starting with `0`, and the packed
payload is 2731 bytes, not `ceil((1 + 4 + 21844)/8) = 2732`. -/
theorem all_zeros_S2_counterexample :
    (f_compress_loop false 12 0 (List.replicate 262144 (0 : Int))).1.getD 0 false = true
    ∧ ((Terse.empty 12).pushed false (List.replicate 262144 (0 : Int))).terse_size
        ≠ 2732 := by
  constructor
  · rw [zeros_S2_eval.1]; rfl
  · rw [zeros_S2_eval.2]; decide

/-! ### Width maximum (`d_prolix_bits`) lemmas -/

theorem compress_go_prolix (signed : Bool) (B : Nat) :
    ∀ (fuel : Nat) (vals : List Int) (prev p : Nat), vals.length ≤ fuel →
      (f_compress_go signed B fuel vals prev p).2
        = List.foldl max p ((chunksGo B fuel vals).map (significantBits signed)) := by
  intro fuel
  induction fuel with
  | zero => intro vals prev p _; cases vals <;> rfl
  | succ fuel ih =>
    intro vals prev p h
    cases vals with
    | nil => rfl
    | cons v vs =>
      simp only [f_compress_go, chunksGo, List.map_cons, List.foldl_cons]
      have hfuel : (vs.drop (B - 1)).length ≤ fuel := by
        simp only [List.length_drop]
        simp only [List.length_cons] at h
        omega
      exact ih (vs.drop (B - 1)) _ _ hfuel

theorem compress_loop_prolix (signed : Bool) (B p : Nat) (vals : List Int) :
    (f_compress_loop signed B p vals).2
      = List.foldl max p (blockWidthList signed B vals) :=
  compress_go_prolix signed B vals.length vals 0 p (le_refl _)

theorem foldl_max_le_init : ∀ (l : List Nat) (p : Nat), p ≤ List.foldl max p l := by
  intro l
  induction l with
  | nil => intro p; exact le_refl p
  | cons a l ih => intro p; exact le_trans (le_max_left p a) (ih (max p a))

theorem pushed_prolix_le (t : Terse) (signed : Bool) (f : List Int) :
    t.d_prolix_bits ≤ (t.pushed signed f).d_prolix_bits := by
  unfold Terse.pushed
  cases h : t.push_back signed f with
  | error e => exact le_refl _
  | ok t' =>
    rw [push_back_ok t signed f t' h]
    show t.d_prolix_bits ≤ (f_compress_loop signed t.d_block t.d_prolix_bits f).2
    rw [compress_loop_prolix]
    exact foldl_max_le_init _ _

theorem pushList_prolix_mono (signed : Bool) :
    ∀ (fs : List (List Int)) (t : Terse),
      t.d_prolix_bits ≤ (pushList signed t fs).d_prolix_bits := by
  intro fs
  induction fs with
  | nil => intro t; exact le_refl _
  | cons f fs ih =>
    intro t
    exact le_trans (pushed_prolix_le t signed f) (ih (t.pushed signed f))

theorem pushList_append (signed : Bool) :
    ∀ (a b : List (List Int)) (t : Terse),
      pushList signed t (a ++ b) = pushList signed (pushList signed t a) b := by
  intro a
  induction a with
  | nil => intro b t; rfl
  | cons f a ih => intro b t; exact ih b (t.pushed signed f)

theorem pushList_prolix (signed : Bool) (B L : Nat) :
    ∀ (frames : List (List Int)) (t : Terse),
      t.d_block = B →
      (t.number_of_frames = 0 ∨ (t.d_size = L ∧ t.d_signed = signed)) →
      (∀ f ∈ frames, f.length = L) →
      (pushList signed t frames).d_prolix_bits
        = List.foldl max t.d_prolix_bits
            ((frames.map (blockWidthList signed B)).flatten) := by
  intro frames
  induction frames with
  | nil => intro t _ _ _; rfl
  | cons f fs ih =>
    intro t hB hinv hlen
    have hok : ∃ t', t.push_back signed f = .ok t' := by
      unfold Terse.push_back
      by_cases h0 : t.number_of_frames = 0
      · rw [if_pos h0]; exact ⟨_, rfl⟩
      · rcases hinv with h0' | ⟨hs, hg⟩
        · exact absurd h0' h0
        · rw [if_neg h0,
            if_neg (show ¬ f.length ≠ t.d_size by rw [hlen f (by simp), hs]; simp),
            if_neg (show ¬ signed ≠ t.d_signed by rw [hg]; simp)]
          exact ⟨_, rfl⟩
    obtain ⟨t', ht'⟩ := hok
    have hrec := push_back_ok t signed f t' ht'
    have hstep : pushList signed t (f :: fs) = pushList signed t' fs := by
      show pushList signed (t.pushed signed f) fs = pushList signed t' fs
      rw [pushed_of_ok t signed f t' ht']
    rw [hstep]
    have hblock : t'.d_block = B := by rw [hrec]; exact hB
    have hinv' : t'.number_of_frames = 0 ∨ (t'.d_size = L ∧ t'.d_signed = signed) := by
      refine Or.inr ⟨?_, ?_⟩
      · rw [hrec]; exact hlen f (by simp)
      · rw [hrec]
    have hp' : t'.d_prolix_bits
        = List.foldl max t.d_prolix_bits (blockWidthList signed B f) := by
      rw [hrec]
      show (f_compress_loop signed t.d_block t.d_prolix_bits f).2 = _
      rw [hB, compress_loop_prolix]
    rw [ih t' hblock hinv' (fun g hg => hlen g (by simp [hg])), hp']
    simp only [List.map_cons, List.flatten_cons, List.foldl_append]

theorem f_highest_go_bounds :
    ∀ (fuel m : Nat), m ≤ fuel → 0 < m →
      2 ^ (f_highest_go fuel m - 1) ≤ m ∧ m < 2 ^ (f_highest_go fuel m) := by
  intro fuel
  induction fuel with
  | zero => intro m h h0; omega
  | succ fuel ih =>
    intro m h h0
    have hm : ¬ (m = 0) := by omega
    simp only [f_highest_go, hm, if_false, ite_false]
    by_cases h2 : m / 2 = 0
    · have hm1 : m = 1 := by omega
      subst hm1
      have hz : f_highest_go fuel (1 / 2) = 0 := by
        rw [show (1 : Nat) / 2 = 0 from rfl]
        cases fuel <;> rfl
      rw [hz]
      norm_num
    · obtain ⟨ih1, ih2⟩ := ih (m / 2) (by omega) (by omega)
      rw [Nat.add_sub_cancel]
      constructor
      · rcases Nat.eq_zero_or_pos (f_highest_go fuel (m / 2)) with hg | hg
        · rw [hg]; omega
        · have hsplit : (2 : Nat) ^ f_highest_go fuel (m / 2)
              = 2 ^ (f_highest_go fuel (m / 2) - 1) * 2 := by
            conv_lhs => rw [show f_highest_go fuel (m / 2)
              = f_highest_go fuel (m / 2) - 1 + 1 by omega]
            rw [pow_succ]
          rw [hsplit]
          omega
      · rw [pow_succ]
        omega

theorem f_highest_set_bit_bounds (m : Nat) (h0 : 0 < m) :
    2 ^ (f_highest_set_bit m - 1) ≤ m ∧ m < 2 ^ (f_highest_set_bit m) :=
  f_highest_go_bounds m m (le_refl m) h0

theorem f_highest_set_bit_le (m k : Nat) (h : m < 2 ^ k) : f_highest_set_bit m ≤ k := by
  rcases Nat.eq_zero_or_pos m with hm | hm
  · subst hm
    show f_highest_go 0 0 ≤ k
    simp [f_highest_go]
  · by_contra hlt
    push_neg at hlt
    have hb := (f_highest_set_bit_bounds m hm).1
    have hpow : (2 : Nat) ^ k ≤ 2 ^ (f_highest_set_bit m - 1) :=
      Nat.pow_le_pow_right (by omega) (by omega)
    omega

/-- C3. `max_bits` characterisation and monotonicity: after any sequence of
frame pushes onto an empty store, `d_prolix_bits` equals the maximum over all
blocks of all pushed frames of the block width `w` (computed by the source as
`f_highest_set_bit` of the OR of the block's values, respectively 1 plus the
bits of the OR of absolute values for signed data, 0 when all values are zero);
it never decreases across pushes; and `f_highest_set_bit` of a positive value
is indeed the position of its highest set bit:
`2^(w-1) ≤ m < 2^w`. -/
theorem max_bits_characterisation (signed : Bool) (B L : Nat)
    (frames : List (List Int)) (hB : 1 ≤ B) (hlen : ∀ f ∈ frames, f.length = L) :
    ((pushList signed (Terse.empty B) frames).d_prolix_bits
        = List.foldl max 0 ((frames.map (blockWidthList signed B)).flatten))
    ∧ (∀ n : Nat, (pushList signed (Terse.empty B) (frames.take n)).d_prolix_bits
        ≤ (pushList signed (Terse.empty B) frames).d_prolix_bits)
    ∧ (∀ m : Nat, 0 < m →
        2 ^ (f_highest_set_bit m - 1) ≤ m ∧ m < 2 ^ (f_highest_set_bit m)) := by
  refine ⟨?_, ?_, fun m hm => f_highest_set_bit_bounds m hm⟩
  · exact pushList_prolix signed B L frames (Terse.empty B) rfl (Or.inl rfl) hlen
  · intro n
    conv_rhs => rw [← List.take_append_drop n frames]
    rw [pushList_append]
    exact pushList_prolix_mono signed _ _

theorem max_bits_characterisation_witness :
    (1 ≤ 12 ∧ ∀ f ∈ [[(1 : Int), 2, 3]], f.length = 3)
    ∧ (pushList false (Terse.empty 12) [[(1 : Int), 2, 3]]).d_prolix_bits
        = List.foldl max 0 (([[(1 : Int), 2, 3]].map (blockWidthList false 12)).flatten) :=
  ⟨⟨by omega, by decide⟩,
    (max_bits_characterisation false 12 3 [[(1 : Int), 2, 3]] (by omega) (by decide)).1⟩

/-! ### Width bound lemmas -/

theorem chunksGo_mem (B : Nat) :
    ∀ (fuel : Nat) (vals c : List Int), c ∈ chunksGo B fuel vals →
      ∀ v ∈ c, v ∈ vals := by
  intro fuel
  induction fuel with
  | zero =>
    intro vals c hc
    cases vals <;> simp [chunksGo] at hc
  | succ fuel ih =>
    intro vals c hc v hv
    cases vals with
    | nil => simp [chunksGo] at hc
    | cons a vs =>
      simp only [chunksGo, List.mem_cons] at hc
      rcases hc with hc | hc
      · subst hc
        rcases List.mem_cons.mp hv with hva | hvt
        · exact hva ▸ List.mem_cons_self a vs
        · exact List.mem_cons_of_mem a (List.take_subset _ _ hvt)
      · exact List.mem_cons_of_mem a (List.drop_subset _ _ (ih _ c hc v hv))

theorem int_toNat_le_natAbs (v : Int) : v.toNat ≤ v.natAbs := by
  cases v with
  | ofNat n => simp [Int.toNat, Int.natAbs]
  | negSucc n => simp [Int.toNat, Int.natAbs]

theorem blockSetbits_lt (signed : Bool) (blk : List Int) (n : Nat)
    (h : ∀ v ∈ blk, v.natAbs < 2 ^ n) : blockSetbits signed blk < 2 ^ n := by
  unfold blockSetbits
  have hgen : ∀ (l : List Int) (acc : Nat), (∀ v ∈ l, v.natAbs < 2 ^ n) → acc < 2 ^ n →
      l.foldl (fun acc v => acc ||| (if signed then v.natAbs else v.toNat)) acc < 2 ^ n := by
    intro l
    induction l with
    | nil => intro acc _ hacc; exact hacc
    | cons v vs ih =>
      intro acc hl hacc
      rw [List.foldl_cons]
      refine ih _ (fun u hu => hl u (List.mem_cons_of_mem v hu)) ?_
      have hv : (if signed then v.natAbs else v.toNat) < 2 ^ n := by
        have hva := hl v (List.mem_cons_self v vs)
        cases signed
        · simpa using lt_of_le_of_lt (int_toNat_le_natAbs v) hva
        · simpa using hva
      exact Nat.or_lt_two_pow hacc hv
  exact hgen blk 0 h (Nat.pos_pow_of_pos n (by omega))

theorem significantBits_false (blk : List Int) :
    significantBits false blk = f_highest_set_bit (blockSetbits false blk) := rfl

theorem significantBits_true (blk : List Int) :
    significantBits true blk
      = (if blockSetbits true blk = 0 then 0
         else 1 + f_highest_set_bit (blockSetbits true blk)) := rfl

theorem significantBits_le (signed : Bool) (blk : List Int) (n : Nat)
    (h : ∀ v ∈ blk, v.natAbs < 2 ^ n) : significantBits signed blk ≤ n + 1 := by
  have hs := blockSetbits_lt signed blk n h
  have hf := f_highest_set_bit_le (blockSetbits signed blk) n hs
  cases signed
  · rw [significantBits_false]
    omega
  · rw [significantBits_true]
    by_cases h0 : blockSetbits true blk = 0
    · rw [if_pos h0]; omega
    · rw [if_neg h0]; omega

/-- C7. Width-overflow rejection: for inputs whose values fit any C++ integral
type of at most 64 bits, encoding fails with `WidthOverflow` if and only if
some block's width exceeds 73 (both sides never hold: every block width is at
most 65, and the encoder accepts every such input; the source contains no
width check and no error path at all). -/
theorem width_overflow_rejection (signed : Bool) (B : Nat) (values : List Int)
    (hB : 1 ≤ B) (hv : ∀ v ∈ values, v.natAbs < 2 ^ 64) :
    (((Terse.empty B).push_back signed values = .error .WidthOverflow)
        ↔ ∃ w ∈ blockWidthList signed B values, 73 < w)
    ∧ (∀ w ∈ blockWidthList signed B values, w ≤ 73)
    ∧ ∃ t', (Terse.empty B).push_back signed values = .ok t' := by
  have hw : ∀ w ∈ blockWidthList signed B values, w ≤ 73 := by
    intro w hwmem
    unfold blockWidthList chunks at hwmem
    obtain ⟨c, hc, hcw⟩ := List.mem_map.mp hwmem
    have hcv : ∀ v ∈ c, v.natAbs < 2 ^ 64 :=
      fun v hvc => hv v (chunksGo_mem B values.length values c hc v hvc)
    have := significantBits_le signed c 64 hcv
    omega
  refine ⟨⟨?_, ?_⟩, hw, ⟨_, push_back_empty B signed values⟩⟩
  · intro h
    rw [push_back_empty B signed values] at h
    exact absurd h (by simp)
  · intro ⟨w, hmem, hgt⟩
    exact absurd (hw w hmem) (by omega)

theorem width_overflow_rejection_witness :
    (1 ≤ 12 ∧ ∀ v ∈ [(5 : Int)], v.natAbs < 2 ^ 64)
    ∧ ((((Terse.empty 12).push_back false [(5 : Int)] = .error .WidthOverflow)
        ↔ ∃ w ∈ blockWidthList false 12 [(5 : Int)], 73 < w)
      ∧ (∀ w ∈ blockWidthList false 12 [(5 : Int)], w ≤ 73)
      ∧ ∃ t', (Terse.empty 12).push_back false [(5 : Int)] = .ok t') :=
  ⟨⟨by omega, by decide⟩,
    width_overflow_rejection false 12 [(5 : Int)] (by omega) (by decide)⟩

/-! ### Decode-side lemmas -/

/-- `f_find_terse_frame` and the offset memoisation only touch
`d_terse_frames`; every other field, and the table's length, are unchanged. -/
theorem f_find_preserves (t : Terse) : ∀ (frame : Nat),
    ((t.f_find_terse_frame frame).2.d_signed = t.d_signed)
    ∧ ((t.f_find_terse_frame frame).2.d_block = t.d_block)
    ∧ ((t.f_find_terse_frame frame).2.d_size = t.d_size)
    ∧ ((t.f_find_terse_frame frame).2.d_terse_data = t.d_terse_data)
    ∧ ((t.f_find_terse_frame frame).2.number_of_frames = t.number_of_frames) := by
  intro frame
  induction frame with
  | zero => exact ⟨rfl, rfl, rfl, rfl, rfl⟩
  | succ frame ih =>
    simp only [Terse.f_find_terse_frame]
    by_cases h : t.d_terse_frames.getD (frame + 1) 0 = 0
    · rw [if_pos h]
      obtain ⟨i1, i2, i3, i4, i5⟩ := ih
      refine ⟨i1, i2, i3, i4, ?_⟩
      show ((t.f_find_terse_frame frame).2.d_terse_frames.set (frame + 1) _).length
          = t.number_of_frames
      rw [List.length_set]
      exact i5
    · rw [if_neg h]
      exact ⟨rfl, rfl, rfl, rfl, rfl⟩

/-- C6. Signedness mismatch on unpack: for a valid frame index, unpacking a
signed store into an unsigned integral target fails with `SignednessMismatch`
(and produces no values), and unpacking never fails at all — in particular not
with this error — when the stored data are unsigned or the target is
signed. -/
theorem signedness_mismatch (t : Terse) (frame outBits : Nat) (outSigned : Bool)
    (hf : frame < t.number_of_frames) :
    ((t.d_signed = true ∧ outSigned = false) →
        t.prolix outSigned outBits frame = .error .SignednessMismatch)
    ∧ ((t.d_signed = false ∨ outSigned = true) →
        ∃ r, t.prolix outSigned outBits frame = .ok r) := by
  have hsig := (f_find_preserves t frame).1
  simp only [Terse.prolix]
  rw [if_pos hf]
  constructor
  · intro ⟨h1, h2⟩
    rw [if_pos (show (t.f_find_terse_frame frame).2.d_signed = true ∧ outSigned = false
      from ⟨by rw [hsig, h1], h2⟩)]
  · intro h
    rw [if_neg (show ¬ ((t.f_find_terse_frame frame).2.d_signed = true ∧ outSigned = false)
      from ?_)]
    · exact ⟨_, rfl⟩
    · rcases h with h | h
      · intro ⟨h1, _⟩; rw [hsig] at h1; exact absurd h1 (by rw [h]; simp)
      · intro ⟨_, h2⟩; rw [h] at h2; exact absurd h2 (by simp)

theorem signedness_mismatch_witness :
    (0 < ((Terse.empty 12).pushed true [1]).number_of_frames)
    ∧ ((((Terse.empty 12).pushed true [1]).d_signed = true ∧ false = false) →
        ((Terse.empty 12).pushed true [1]).prolix false 64 0
          = .error .SignednessMismatch)
    ∧ ((((Terse.empty 12).pushed true [1]).d_signed = false ∨ true = true) →
        ∃ r, ((Terse.empty 12).pushed true [1]).prolix true 64 0 = .ok r) :=
  ⟨by decide,
    (signedness_mismatch ((Terse.empty 12).pushed true [1]) 0 64 false (by decide)).1,
    (signedness_mismatch ((Terse.empty 12).pushed true [1]) 0 64 true (by decide)).2⟩

/-- C10. Empty-frame edge case: on a store whose frame length is 0, every
(signedness-compatible) push of an empty frame succeeds, appends exactly one
frame whose encoding has no header bits and no value bits, grows the packed
buffer by exactly one byte, and unpacking any frame of such a store writes
nothing and succeeds. -/
theorem empty_frame_push (t : Terse) (signed : Bool)
    (hsize : t.d_size = 0)
    (hcompat : t.number_of_frames = 0 ∨ t.d_signed = signed) :
    ∃ t', t.push_back signed [] = .ok t'
      ∧ t'.number_of_frames = t.number_of_frames + 1
      ∧ (f_compress_loop signed t.d_block t.d_prolix_bits ([] : List Int)).1 = []
      ∧ t'.terse_size = t.terse_size + 1
      ∧ ∀ (outSigned : Bool) (outBits frame : Nat),
          frame < t'.number_of_frames →
          (t'.d_signed = false ∨ outSigned = true) →
          ∃ t2, t'.prolix outSigned outBits frame = .ok ([], t2) := by
  have hok : ∃ t', t.push_back signed [] = .ok t' := by
    unfold Terse.push_back
    by_cases h0 : t.number_of_frames = 0
    · rw [if_pos h0]; exact ⟨_, rfl⟩
    · rcases hcompat with h0' | hS
      · exact absurd h0' h0
      · rw [if_neg h0,
          if_neg (show ¬ ([] : List Int).length ≠ t.d_size by simp [hsize]),
          if_neg (show ¬ signed ≠ t.d_signed by rw [hS]; simp)]
        exact ⟨_, rfl⟩
  obtain ⟨t', ht'⟩ := hok
  have hrec := push_back_ok t signed [] t' ht'
  have hbits : (f_compress_loop signed t.d_block t.d_prolix_bits ([] : List Int)).1
      = [] := rfl
  have hsize' : t'.d_size = 0 := by rw [hrec]; rfl
  refine ⟨t', ht', ?_, hbits, ?_, ?_⟩
  · rw [hrec]
    show (t.d_terse_frames ++ [0]).length = t.d_terse_frames.length + 1
    simp
  · rw [hrec]
    show (padToByte (t.d_terse_data
        ++ (f_compress_loop signed t.d_block t.d_prolix_bits []).1)).length / 8
      = t.d_terse_data.length / 8 + 1
    rw [hbits, List.append_nil, padToByte_length]
    omega
  · intro outSigned outBits frame hf hcs
    have hsig := (f_find_preserves t' frame).1
    have hds : (t'.f_find_terse_frame frame).2.d_size = 0 := by
      rw [(f_find_preserves t' frame).2.2.1, hsize']
    simp only [Terse.prolix]
    rw [if_pos hf]
    rw [if_neg (show ¬ ((t'.f_find_terse_frame frame).2.d_signed = true
        ∧ outSigned = false) from ?_)]
    · rw [hds]
      exact ⟨_, rfl⟩
    · rcases hcs with h | h
      · intro ⟨h1, _⟩; rw [hsig] at h1; exact absurd h1 (by rw [h]; simp)
      · intro ⟨_, h2⟩; rw [h] at h2; exact absurd h2 (by simp)

theorem empty_frame_push_witness :
    ((Terse.empty 12).d_size = 0 ∧ (Terse.empty 12).number_of_frames = 0)
    ∧ ∃ t', (Terse.empty 12).push_back false [] = .ok t'
      ∧ t'.number_of_frames = (Terse.empty 12).number_of_frames + 1
      ∧ (f_compress_loop false (Terse.empty 12).d_block
          (Terse.empty 12).d_prolix_bits ([] : List Int)).1 = []
      ∧ t'.terse_size = (Terse.empty 12).terse_size + 1
      ∧ ∀ (outSigned : Bool) (outBits frame : Nat),
          frame < t'.number_of_frames →
          (t'.d_signed = false ∨ outSigned = true) →
          ∃ t2, t'.prolix outSigned outBits frame = .ok ([], t2) :=
  ⟨⟨rfl, rfl⟩, empty_frame_push (Terse.empty 12) false rfl (Or.inl rfl)⟩

/-! ### Saturation lemmas -/

/-- C5 (amended). Scenario S5: pushing `[i32::MIN, i32::MAX]` as one signed
frame with block size 2 yields `max_bits = 33` (the source computes
`1 + f_highest_set_bit(|MIN| OR |MAX|)` and `|i32::MIN| = 2^31` already needs
32 bits), and unpacking that frame into a signed 16-bit output saturates to
`[i16::MIN, i16::MAX]`; in general, a decoded value above the output type's
maximum becomes that maximum and, for signed outputs, a decoded value below
the minimum becomes that minimum. -/
theorem saturation_S5 :
    ((Terse.empty 2).pushed true [-(2 ^ 31 : Int), 2 ^ 31 - 1]).d_prolix_bits = 33
    ∧ ((Terse.empty 2).pushed true [-(2 ^ 31 : Int), 2 ^ 31 - 1]).prolixVals true 16 0
        = [-(2 ^ 15 : Int), 2 ^ 15 - 1]
    ∧ (∀ (outBits w raw : Nat),
        (2 : Int) ^ (outBits - 1) - 1 < signExtend w raw →
          get_range_elem true outBits w raw = 2 ^ (outBits - 1) - 1)
    ∧ (∀ (outBits w raw : Nat),
        signExtend w raw < -((2 : Int) ^ (outBits - 1)) →
          get_range_elem true outBits w raw = -((2 : Int) ^ (outBits - 1)))
    ∧ (∀ (outBits w raw : Nat),
        (2 : Int) ^ outBits - 1 < (raw : Int) →
          get_range_elem false outBits w raw = 2 ^ outBits - 1) := by
  have hpow : ∀ k : Nat, (0 : Int) < 2 ^ k := fun k => by positivity
  refine ⟨by decide, by decide, ?_, ?_, ?_⟩
  · intro outBits w raw h
    unfold get_range_elem
    rw [if_pos rfl, min_eq_right (le_of_lt h),
      max_eq_right (by have := hpow (outBits - 1); omega)]
  · intro outBits w raw h
    unfold get_range_elem
    rw [if_pos rfl,
      min_eq_left (by have := hpow (outBits - 1); omega),
      max_eq_left (le_of_lt h)]
  · intro outBits w raw h
    unfold get_range_elem
    rw [if_neg (by simp), min_eq_right (le_of_lt h)]

/-- C5 counterexample. For `xs = [i32::MIN, i32::MAX]`, signed, block size 2,
the stored width maximum is 33, not 32 as the claim states. -/
theorem saturation_S5_counterexample :
    ((Terse.empty 2).pushed true [-(2 ^ 31 : Int), 2 ^ 31 - 1]).d_prolix_bits ≠ 32 := by
  decide

theorem saturation_S5_witness :
    ((2 : Int) ^ (16 - 1) - 1 < signExtend 33 (2 ^ 31)
      ∧ get_range_elem true 16 33 (2 ^ 31) = (2 : Int) ^ (16 - 1) - 1)
    ∧ (signExtend 33 (2 ^ 33 - 2 ^ 31) < -((2 : Int) ^ (16 - 1))
      ∧ get_range_elem true 16 33 (2 ^ 33 - 2 ^ 31) = -((2 : Int) ^ (16 - 1)))
    ∧ ((2 : Int) ^ 16 - 1 < ((2 ^ 31 : Nat) : Int)
      ∧ get_range_elem false 16 33 (2 ^ 31) = (2 : Int) ^ 16 - 1) :=
  ⟨⟨by decide, saturation_S5.2.2.1 16 33 (2 ^ 31) (by decide)⟩,
    ⟨by decide, saturation_S5.2.2.2.1 16 33 (2 ^ 33 - 2 ^ 31) (by decide)⟩,
    ⟨by decide, saturation_S5.2.2.2.2 16 33 (2 ^ 31) (by decide)⟩⟩

/-! ### Multi-frame decode bugs -/

/-- C1 (code bug). Round-trip fails for frame indices beyond 1:
`f_find_terse_frame` stores `1 + (bits of frame k-1)/8`, an offset relative to
frame k-1's first byte, but uses it as an absolute offset into the buffer.
Pushing `[1]`, `[2]`, `[3]` (unsigned, block size 1) and then unpacking frame 2
into a 64-bit unsigned target (width 64 ≥ max_bits = 2, signedness compatible)
returns `[2]` — frame 1's data — instead of `[3]`. -/
theorem roundtrip_frame2_bug :
    ((((Terse.empty 1).pushed false [1]).pushed false [2]).pushed false [3]).d_prolix_bits
        = 2
    ∧ 2 ≤ 64
    ∧ ((((Terse.empty 1).pushed false [1]).pushed false [2]).pushed
        false [3]).prolixVals false 64 2 = [2]
    ∧ ([2] : List Int) ≠ [3] := by
  exact ⟨by decide, by omega, by decide, by decide⟩

/-- C4 (code bug). The offset-table invariant fails: entry 0 is 0, not 1, and
materialising an unresolved entry changes observable behaviour.  With frames
`[200,200,200]` and `[3,3,3]` (unsigned, block size 2), the lazy scan advances
`w * block` bits even for the final 1-value block, so a direct `unpack(1)`
decodes from byte 5 and returns `[0,0,0]`, while `unpack(0)` followed by
`unpack(1)` memoises the correct offset 4 and returns `[3,3,3]`. -/
theorem frame_offsets_bug :
    (((Terse.empty 2).pushed false [200, 200, 200]).pushed
        false [3, 3, 3]).d_terse_frames.getD 0 1 = 0
    ∧ (((Terse.empty 2).pushed false [200, 200, 200]).pushed
        false [3, 3, 3]).prolixVals false 64 1 = [0, 0, 0]
    ∧ ((((Terse.empty 2).pushed false [200, 200, 200]).pushed
        false [3, 3, 3]).prolixNext false 64 0).prolixVals false 64 1 = [3, 3, 3]
    ∧ ([0, 0, 0] : List Int) ≠ [3, 3, 3] := by
  exact ⟨by decide, by decide, by decide, by decide⟩

end Trpx
